import Mathlib

/-!
Verification development for the StrainGE core (k-mer set engine, strain
search, variant caller).  Python/numpy code is shallowly embedded: the
parallel uint64/uint32 numpy arrays of a `KmerSet` become `List ℕ`,
float arithmetic becomes `ℚ`, and fallible code returns `Option` or
`Except`.  The `kmerizer` C++ extension and `strainge/utils.py` are not
part of the sources; the handful of primitives taken from them are
modelled from the specification and are marked as such in their doc
comments.
-/

namespace StrainGE

/-! ## kmerizer primitives (C++ extension, modelled from the spec) -/

/-- Modelled from the spec: the `kmerizer` C++ extension is not in the
sources.  `intersect_ix(a, b)` returns the indices into `a` of those
elements of `a` present in `b`, preserving `a`'s order; it is used to
gather parallel arrays onto the intersection. -/
def intersect_ix (a b : List ℕ) : List ℕ :=
  (List.range a.length).filter (fun i => a.getD i 0 ∈ b)

/-- Modelled from the spec: `intersect(a, b)` returns those elements of
`a` present in `b`, preserving `a`'s order. -/
def intersect (a b : List ℕ) : List ℕ :=
  a.filter (fun x => x ∈ b)

/-- Modelled from the spec: `diff(a, b)` returns `a \ b`, preserving
order. -/
def diff (a b : List ℕ) : List ℕ :=
  a.filter (fun x => x ∉ b)

/-- numpy fancy indexing `l[ix]`: gather the entries of `l` at the
positions listed in `ix`. -/
def gather (l : List ℕ) (ix : List ℕ) : List ℕ :=
  ix.map (fun i => l.getD i 0)

/-! ### Gather lemmas -/

theorem mem_intersect_ix_lt {a b : List ℕ} {i : ℕ} (h : i ∈ intersect_ix a b) :
    i < a.length := by
  have := List.mem_filter.mp h
  exact List.mem_range.mp this.1

theorem intersect_ix_pairwise (a b : List ℕ) :
    (intersect_ix a b).Pairwise (· < ·) :=
  (List.pairwise_lt_range a.length).sublist (List.filter_sublist _)

/-- Gathering a strictly increasing, in-bounds index list from a strictly
sorted list yields a strictly sorted list. -/
theorem gather_pairwise {l ix : List ℕ} (hl : l.Pairwise (· < ·))
    (hix : ix.Pairwise (· < ·)) (hb : ∀ i ∈ ix, i < l.length) :
    (gather l ix).Pairwise (· < ·) := by
  unfold gather
  rw [List.pairwise_map]
  have hmono := List.pairwise_iff_getElem.mp hl
  refine (List.Pairwise.and_mem.mp hix).imp ?_
  rintro i j ⟨hi, hj, hij⟩
  have hi' := hb i hi
  have hj' := hb j hj
  rw [List.getD_eq_getElem l 0 hi', List.getD_eq_getElem l 0 hj']
  exact hmono i j hi' hj' hij

theorem gather_mem {l ix : List ℕ} {x : ℕ} (hx : x ∈ gather l ix)
    (hb : ∀ i ∈ ix, i < l.length) : x ∈ l := by
  unfold gather at hx
  obtain ⟨i, hi, rfl⟩ := List.mem_map.mp hx
  rw [List.getD_eq_getElem l 0 (hb i hi)]
  exact List.getElem_mem _

/-- Reading every index of a list back out of it reproduces the list. -/
theorem map_getD_range (l : List ℕ) :
    (List.range l.length).map (fun i => l.getD i 0) = l := by
  induction l with
  | nil => rfl
  | cons a t ih =>
    rw [List.length_cons, List.range_succ_eq_map, List.map_cons,
      List.map_map]
    rw [show ((fun i => (a :: t).getD i 0) ∘ Nat.succ) = fun i => t.getD i 0
      from rfl]
    rw [List.getD_cons_zero, ih]

/-- Reading every index of two parallel lists reproduces their zip. -/
theorem map_pair_getD_range (l c : List ℕ) (hlen : l.length = c.length) :
    (List.range l.length).map (fun i => (l.getD i 0, c.getD i 0))
      = l.zip c := by
  induction l generalizing c with
  | nil => rfl
  | cons a t ih =>
    cases c with
    | nil => simp at hlen
    | cons b u =>
      have hlen' : t.length = u.length := by simpa using hlen
      rw [List.length_cons, List.range_succ_eq_map, List.map_cons,
        List.map_map]
      rw [show ((fun i => ((a :: t).getD i 0, (b :: u).getD i 0)) ∘ Nat.succ)
        = fun i => (t.getD i 0, u.getD i 0) from rfl]
      rw [List.getD_cons_zero, List.getD_cons_zero, List.zip_cons_cons,
        ih u hlen']

/-- Gathering a list over the indices where a predicate on its own
entries holds is the same as filtering the list by the predicate. -/
theorem gather_filter_range (l : List ℕ) (p : ℕ → Bool) :
    gather l ((List.range l.length).filter (fun i => p (l.getD i 0)))
      = l.filter p := by
  unfold gather
  rw [show (fun i => p (l.getD i 0)) = (p ∘ fun i => l.getD i 0) from rfl,
    ← List.filter_map, map_getD_range]

/-- Pair version: gathering a parallel list `c` (same length as `l`) over
the indices where a predicate on `l`'s entries holds equals filtering the
zipped pairs on the first component and projecting the second. -/
theorem gather_pair_filter_range (l c : List ℕ) (hlen : l.length = c.length)
    (p : ℕ → Bool) :
    gather c ((List.range l.length).filter (fun i => p (l.getD i 0)))
      = ((l.zip c).filter (fun x => p x.1)).map Prod.snd := by
  unfold gather
  have h1 : (fun i => c.getD i 0)
      = Prod.snd ∘ (fun i => (l.getD i 0, c.getD i 0)) := rfl
  have h2 : (fun i => p (l.getD i 0))
      = ((fun x : ℕ × ℕ => p x.1) ∘ (fun i => (l.getD i 0, c.getD i 0))) :=
    rfl
  rw [h1, h2, ← List.map_map, ← List.filter_map, map_pair_getD_range l c hlen]

/-! ## KmerSet (kmertools.py) -/

/-- A k-mer set: the k-mer length `k` and parallel arrays of strictly
increasing 64-bit k-mers and their positive counts
(`kmertools.KmerSet`).  Only the fields the claims need are embedded. -/
structure KmerSet where
  k : ℕ := 23
  kmers : List ℕ
  counts : List ℕ
deriving Repr, DecidableEq

/-- The k-mer set invariants (K-1)(K-2)(K-3): parallel arrays of equal
length, strictly sorted keys, all counts at least 1. -/
def KmerSet.Inv (ks : KmerSet) : Prop :=
  ks.kmers.Pairwise (· < ·) ∧ ks.kmers.length = ks.counts.length ∧
    ∀ c ∈ ks.counts, 1 ≤ c

instance (ks : KmerSet) : Decidable ks.Inv := by
  unfold KmerSet.Inv; infer_instance

/-- `KmerSet.intersect`: restrict to the keys present in `kmers`,
reindexing counts via `intersect_ix`. -/
def KmerSet.intersect (ks : KmerSet) (kmers : List ℕ) : KmerSet :=
  let ix := intersect_ix ks.kmers kmers
  { k := ks.k, kmers := gather ks.kmers ix, counts := gather ks.counts ix }

/-- `KmerSet.exclude`: remove the given keys; the new key array is
`diff`, counts are re-gathered via `intersect_ix` against it. -/
def KmerSet.exclude (ks : KmerSet) (kmers : List ℕ) : KmerSet :=
  let new_kmers := diff ks.kmers kmers
  let ix := intersect_ix ks.kmers new_kmers
  { k := ks.k, kmers := new_kmers, counts := gather ks.counts ix }

/-- `KmerSet.mutual_intersect`: reduce both operands to their common
keys; `other` is reduced against the already-reduced `self`. -/
def KmerSet.mutual_intersect (ks other : KmerSet) : KmerSet × KmerSet :=
  let ix := intersect_ix ks.kmers other.kmers
  let ks' : KmerSet :=
    { k := ks.k, kmers := gather ks.kmers ix, counts := gather ks.counts ix }
  let ix2 := intersect_ix other.kmers ks'.kmers
  let other' : KmerSet :=
    { k := other.k, kmers := gather other.kmers ix2, counts := gather other.counts ix2 }
  (ks', other')

/-- `KmerSet.freq_filter(min_freq, max_freq)`: boolean-mask both arrays by
a condition on the counts.  `max_freq = 0` encodes Python's falsy
`max_freq` (no upper bound). -/
def KmerSet.freq_filter (ks : KmerSet) (minFreq maxFreq : ℕ) : KmerSet :=
  let cond : ℕ → Bool := fun c =>
    decide (minFreq ≤ c) && (decide (maxFreq = 0) || decide (c ≤ maxFreq))
  let ix := (List.range ks.counts.length).filter
    (fun i => cond (ks.counts.getD i 0))
  { k := ks.k, kmers := gather ks.kmers ix, counts := gather ks.counts ix }

/-! ### Invariant preservation (claim C5) -/

theorem filter_range_pairwise (n : ℕ) (q : ℕ → Bool) :
    ((List.range n).filter q).Pairwise (· < ·) :=
  (List.pairwise_lt_range n).sublist (List.filter_sublist _)

theorem inv_intersect {ks : KmerSet} (h : ks.Inv) (arg : List ℕ) :
    (ks.intersect arg).Inv := by
  obtain ⟨hsort, hlen, hpos⟩ := h
  refine ⟨?_, ?_, ?_⟩
  · exact gather_pairwise hsort (intersect_ix_pairwise _ _)
      (fun i hi => mem_intersect_ix_lt hi)
  · simp [KmerSet.intersect, gather]
  · intro c hc
    refine hpos c (gather_mem hc ?_)
    intro i hi
    exact hlen ▸ mem_intersect_ix_lt hi

theorem inv_exclude {ks : KmerSet} (h : ks.Inv) (arg : List ℕ) :
    (ks.exclude arg).Inv := by
  obtain ⟨hsort, hlen, hpos⟩ := h
  refine ⟨?_, ?_, ?_⟩
  · exact hsort.sublist (List.filter_sublist _)
  · show (diff ks.kmers arg).length = (gather ks.counts _).length
    have hgk : gather ks.kmers (intersect_ix ks.kmers (diff ks.kmers arg))
        = ks.kmers.filter (fun x => decide (x ∈ diff ks.kmers arg)) := by
      unfold intersect_ix
      exact gather_filter_range ks.kmers
        (fun x => decide (x ∈ diff ks.kmers arg))
    have hcongr : ks.kmers.filter (fun x => decide (x ∈ diff ks.kmers arg))
        = ks.kmers.filter (fun x => decide (x ∉ arg)) := by
      refine List.filter_congr ?_
      intro x hx
      simp only [decide_eq_decide]
      constructor
      · intro hmem
        have := List.mem_filter.mp hmem
        simpa using this.2
      · intro hnot
        exact List.mem_filter.mpr ⟨hx, by simpa using hnot⟩
    have hlen2 : (intersect_ix ks.kmers (diff ks.kmers arg)).length
        = (diff ks.kmers arg).length := by
      have := congrArg List.length (hgk.trans hcongr)
      simpa [gather, diff] using this
    simp [gather, hlen2]
  · intro c hc
    refine hpos c (gather_mem hc ?_)
    intro i hi
    exact hlen ▸ mem_intersect_ix_lt hi

theorem inv_mutual_intersect {ks other : KmerSet} (h : ks.Inv)
    (h2 : other.Inv) :
    (ks.mutual_intersect other).1.Inv ∧ (ks.mutual_intersect other).2.Inv := by
  obtain ⟨hsort, hlen, hpos⟩ := h
  obtain ⟨hsort2, hlen2, hpos2⟩ := h2
  constructor
  · refine ⟨?_, ?_, ?_⟩
    · exact gather_pairwise hsort (intersect_ix_pairwise _ _)
        (fun i hi => mem_intersect_ix_lt hi)
    · simp [KmerSet.mutual_intersect, gather]
    · intro c hc
      refine hpos c (gather_mem hc ?_)
      intro i hi
      exact hlen ▸ mem_intersect_ix_lt hi
  · refine ⟨?_, ?_, ?_⟩
    · exact gather_pairwise hsort2 (intersect_ix_pairwise _ _)
        (fun i hi => mem_intersect_ix_lt hi)
    · simp [KmerSet.mutual_intersect, gather]
    · intro c hc
      refine hpos2 c (gather_mem hc ?_)
      intro i hi
      exact hlen2 ▸ mem_intersect_ix_lt hi

theorem inv_freq_filter {ks : KmerSet} (h : ks.Inv) (minFreq maxFreq : ℕ) :
    (ks.freq_filter minFreq maxFreq).Inv := by
  obtain ⟨hsort, hlen, hpos⟩ := h
  have hb : ∀ i ∈ (List.range ks.counts.length).filter
      (fun i => decide (minFreq ≤ ks.counts.getD i 0) &&
        (decide (maxFreq = 0) || decide (ks.counts.getD i 0 ≤ maxFreq))),
      i < ks.counts.length := by
    intro i hi
    exact List.mem_range.mp (List.mem_filter.mp hi).1
  refine ⟨?_, ?_, ?_⟩
  · exact gather_pairwise hsort
      (filter_range_pairwise _ _) (fun i hi => hlen ▸ hb i hi)
  · simp [KmerSet.freq_filter, gather]
  · intro c hc
    exact hpos c (gather_mem hc hb)

/-- C5. The four KmerSet mutators `intersect`, `exclude`,
`mutual_intersect` and `freq_filter` preserve the k-mer set invariants
(strictly sorted keys, equal-length parallel arrays, counts at least 1)
for every KmerSet satisfying them and every sorted, duplicate-free
argument key array. -/
theorem kmerset_mutators_preserve_invariants
    (ks other : KmerSet) (arg : List ℕ) (minFreq maxFreq : ℕ)
    (hks : ks.Inv) (hother : other.Inv) (harg : arg.Pairwise (· < ·)) :
    (ks.intersect arg).Inv ∧ (ks.exclude arg).Inv ∧
    (ks.mutual_intersect other).1.Inv ∧ (ks.mutual_intersect other).2.Inv ∧
    (ks.freq_filter minFreq maxFreq).Inv :=
  ⟨inv_intersect hks arg, inv_exclude hks arg,
    (inv_mutual_intersect hks hother).1, (inv_mutual_intersect hks hother).2,
    inv_freq_filter hks minFreq maxFreq⟩

/-- Witness for C5 at a concrete KmerSet and argument array. -/
theorem kmerset_mutators_preserve_invariants_witness :
    (KmerSet.Inv ⟨23, [1, 3, 7], [2, 1, 5]⟩ ∧
      KmerSet.Inv ⟨23, [3, 7], [4, 4]⟩ ∧
      List.Pairwise (· < ·) [3, 9]) ∧
    ((⟨23, [1, 3, 7], [2, 1, 5]⟩ : KmerSet).intersect [3, 9]).Inv :=
  ⟨⟨by decide, by decide, by decide⟩,
    (kmerset_mutators_preserve_invariants ⟨23, [1, 3, 7], [2, 1, 5]⟩
      ⟨23, [3, 7], [4, 4]⟩ [3, 9] 1 0 (by decide) (by decide) (by decide)).1⟩

/-! ## variant_caller.py: Allele -/

namespace Allele

/-- `Allele` values are an `IntFlag` bitset over
A=1, C=2, G=4, T=8, INS=16, DEL=32; N is 0. -/
def N : ℕ := 0

def A : ℕ := 1

def C : ℕ := 2

def G : ℕ := 4

def T : ℕ := 8

def INS : ℕ := 16

def DEL : ℕ := 32

/-- `Allele.rc`: reverse-complement allele; only meaningful for
single-allele values, everything else is returned unchanged. -/
def rc (v : ℕ) : ℕ :=
  if v = A then T
  else if v = C then G
  else if v = G then C
  else if v = T then A
  else v

end Allele

/-- C9. `Allele.rc` is an involution on every value, swaps A with T and
C with G, and is the identity on N, INS, DEL and every multi-bit
combination. -/
theorem allele_rc_involution :
    (∀ v : ℕ, Allele.rc (Allele.rc v) = v) ∧
    Allele.rc Allele.A = Allele.T ∧ Allele.rc Allele.T = Allele.A ∧
    Allele.rc Allele.C = Allele.G ∧ Allele.rc Allele.G = Allele.C ∧
    Allele.rc Allele.N = Allele.N ∧ Allele.rc Allele.INS = Allele.INS ∧
    Allele.rc Allele.DEL = Allele.DEL ∧
    (∀ v : ℕ, Nat.land v (v - 1) ≠ 0 → Allele.rc v = v) := by
  refine ⟨?_, rfl, rfl, rfl, rfl, rfl, rfl, rfl, ?_⟩
  · intro v
    unfold Allele.rc Allele.A Allele.C Allele.G Allele.T
    split_ifs with h1 h2 h3 h4 <;> simp_all
  · intro v hv
    unfold Allele.rc
    split_ifs with h1 h2 h3 h4 <;> first
      | rfl
      | (exfalso; apply hv; subst_vars; rfl)

/-- Witness for C9's multi-bit clause at the concrete value A|T = 9. -/
theorem allele_rc_involution_witness :
    Nat.land 9 (9 - 1) ≠ 0 ∧ Allele.rc 9 = 9 :=
  ⟨by decide, allele_rc_involution.2.2.2.2.2.2.2.2 9 (by decide)⟩

/-! ## variant_caller.py: Reference coordinate model (claim C2)

A `Reference` is embedded as its ordered list of `(scaffold name, length)`
pairs (`self.scaffolds` is an insertion-ordered dict from scaffold id to
sequence record; `self.lengths` is the parallel list of lengths). -/

/-- `Reference.scaffold_coord`: turn a 0-based genome-wide coordinate
into a `(scaffold, 1-based local coordinate)` pair by a linear pass,
`None` past the end. -/
def scaffold_coord : List (String × ℕ) → ℕ → ℕ → Option (String × ℕ)
  | [], _, _ => none
  | (nm, len) :: rest, offset, coord =>
    if coord < offset + len then some (nm, coord + 1 - offset)
    else scaffold_coord rest (offset + len) coord

/-- `Reference.scaffold_to_genome_coord` as written in the source: the
loop is `for scaffold, length in zip(self.scaffolds, self.lengths)`,
which iterates over the KEYS of the `scaffolds` dict, so `scaffold` is a
`str`; the body then evaluates `scaffold.name`, and a `str` has no
attribute `name`.  With a non-empty scaffold list the first iteration
therefore raises `AttributeError`; with an empty list the loop body never
runs and the function falls through returning `None`. -/
def scaffold_to_genome_coord (scaffolds : List (String × ℕ))
    (name : String) (coord : ℕ) : Except String (Option ℕ) :=
  match scaffolds, name, coord with
  | [], _, _ => .ok none
  | _ :: _, _, _ => .error "AttributeError: str has no attribute name"

/-- The intended `scaffold_to_genome_coord` per its own docstring: a
1-based scaffold coordinate becomes the 0-based global coordinate
`sum(lengths of prior scaffolds) + local - 1`. -/
def scaffold_to_genome_coord_intended :
    List (String × ℕ) → ℕ → String → ℕ → Option ℕ
  | [], _, _, _ => none
  | (nm, len) :: rest, offset, name, coord =>
    if nm = name then some (offset + coord - 1)
    else scaffold_to_genome_coord_intended rest (offset + len) name coord

/-- C2 (code bug). At the concrete reference with one scaffold `s1` of
length 5 and local coordinate 3, `scaffold_to_genome_coord` raises
`AttributeError` instead of returning the global coordinate 2, while the
sibling `scaffold_coord` correctly maps global 2 back to `(s1, 3)` and
the docstring-intended computation indeed yields 2. -/
theorem scaffold_to_genome_coord_raises :
    scaffold_to_genome_coord [("s1", 5)] "s1" 3
        = .error "AttributeError: str has no attribute name" ∧
    scaffold_coord [("s1", 5)] 0 2 = some ("s1", 3) ∧
    scaffold_to_genome_coord_intended [("s1", 5)] 0 "s1" 3 = some 2 :=
  ⟨rfl, rfl, rfl⟩

/-! ## variant_caller.py: ScaffoldCallData and call_alleles -/

/-- Per-scaffold pileup statistics (`ScaffoldCallData`).  The numpy array
`alleles[p, 0, a]` (good-read counts) is `alleles_count`, `alleles[p, 1, a]`
(summed base qualities) is `alleles_qual`; allele axis order is the
`ALLELE_MASKS` order A, C, G, T, INS, DEL with bit values `2 ^ a`. -/
structure ScaffoldCallData where
  length : ℕ
  alleles_count : ℕ → Fin 6 → ℕ
  alleles_qual : ℕ → Fin 6 → ℕ
  lowmq_count : ℕ → ℕ
  high_coverage : ℕ → Bool

/-- `quals.sum(axis=-1)` at one position. -/
def qual_sums (scd : ScaffoldCallData) (p : ℕ) : ℕ :=
  ((List.finRange 6).map (fun a => scd.alleles_qual p a)).sum

/-- `numpy.divide(quals, qual_sums, where=qual_sums > 0)`: the quotient
where the positional quality total is positive.  Where it is zero numpy
leaves the output uninitialized; any entry read there sits under the
conjunct `quals > min_pileup_qual`, which is false at such positions
(all six quality sums are 0 and the threshold is a non-negative
quality), so the value is never observable and we use 0, the spec's
convention. -/
def qual_fraction (scd : ScaffoldCallData) (p : ℕ) (a : Fin 6) : ℚ :=
  if 0 < qual_sums scd p then
    (scd.alleles_qual p a : ℚ) / (qual_sums scd p : ℚ)
  else 0

/-- `(boolean_vector * ALLELE_MASKS).sum(axis=-1)`: the sum of the bit
masks of the alleles selected by `f`. -/
def maskSum (f : Fin 6 → Bool) : ℕ :=
  ((List.finRange 6).map (fun a => if f a then 2 ^ (a : ℕ) else 0)).sum

/-- The weak-call array assigned by `call_alleles`: evidence is any
positive quality sum; zeroed at high-coverage positions. -/
def ScaffoldCallData.weak (scd : ScaffoldCallData) (p : ℕ) : ℕ :=
  if scd.high_coverage p then 0
  else maskSum (fun a => decide (0 < scd.alleles_qual p a))

/-- The strong-call array assigned by
`call_alleles(min_pileup_qual, min_qual_frac)`: an allele is confirmed
when its quality sum exceeds `min_pileup_qual` and its fraction of the
positional quality total exceeds `min_qual_frac`; zeroed at
high-coverage positions. -/
def ScaffoldCallData.strong (scd : ScaffoldCallData)
    (min_pileup_qual : ℕ) (min_qual_frac : ℚ) (p : ℕ) : ℕ :=
  if scd.high_coverage p then 0
  else maskSum (fun a =>
    decide (min_pileup_qual < scd.alleles_qual p a) &&
    decide (min_qual_frac < qual_fraction scd p a))

/-- The bitwise OR of the masks of the alleles selected by `f`. -/
def orOf (f : Fin 6 → Bool) : ℕ :=
  ((List.finRange 6).filter f).foldr (fun a acc => Nat.lor (2 ^ (a : ℕ)) acc) 0

theorem maskSum_eq_orOf : ∀ f : Fin 6 → Bool, maskSum f = orOf f := by decide

set_option maxRecDepth 4096 in
theorem maskSum_land_compl : ∀ f g : Fin 6 → Bool,
    (∀ a, g a = true → f a = true) →
    Nat.land (maskSum g) (Nat.xor 63 (maskSum f)) = 0 := by decide

/-- C4. At every position not flagged high-coverage, `call_alleles` sets
`weak[p]` to the bitwise OR of the masks of exactly the alleles with a
positive quality sum, and `strong[p]` to the bitwise OR of the masks of
exactly the alleles whose quality sum exceeds `min_pileup_qual` and whose
fraction of the positional quality total (0 when the total is 0) exceeds
`min_qual_frac`; at every high-coverage position both are 0. -/
theorem call_alleles_weak_strong (scd : ScaffoldCallData)
    (min_pileup_qual : ℕ) (min_qual_frac : ℚ) (p : ℕ) :
    (scd.high_coverage p = false →
      scd.weak p = orOf (fun a => decide (0 < scd.alleles_qual p a)) ∧
      scd.strong min_pileup_qual min_qual_frac p = orOf (fun a =>
        decide (min_pileup_qual < scd.alleles_qual p a) &&
        decide (min_qual_frac <
          if qual_sums scd p = 0 then 0
          else (scd.alleles_qual p a : ℚ) / (qual_sums scd p : ℚ)))) ∧
    (scd.high_coverage p = true →
      scd.weak p = 0 ∧
      scd.strong min_pileup_qual min_qual_frac p = 0) := by
  constructor
  · intro hlow
    have hfrac : ∀ a : Fin 6, qual_fraction scd p a =
        (if qual_sums scd p = 0 then 0
          else (scd.alleles_qual p a : ℚ) / (qual_sums scd p : ℚ)) := by
      intro a
      unfold qual_fraction
      rcases Nat.eq_zero_or_pos (qual_sums scd p) with h | h
      · simp [h]
      · simp [h, Nat.pos_iff_ne_zero.mp h]
    constructor
    · unfold ScaffoldCallData.weak
      rw [hlow]
      simp only [Bool.false_eq_true, if_false]
      exact maskSum_eq_orOf _
    · unfold ScaffoldCallData.strong
      rw [hlow]
      simp only [Bool.false_eq_true, if_false]
      rw [maskSum_eq_orOf]
      congr 1
      funext a
      rw [hfrac a]
  · intro hhigh
    constructor
    · unfold ScaffoldCallData.weak
      rw [hhigh]
      simp
    · unfold ScaffoldCallData.strong
      rw [hhigh]
      simp

/-- Witness for C4 at a concrete scaffold: position 0 is not
high-coverage and the weak/strong equations hold there; position 1 is
high-coverage and both calls are zeroed. -/
theorem call_alleles_weak_strong_witness :
    ((fun p => p = 1 : ℕ → Bool) 0 = false ∧
      ScaffoldCallData.weak
        ⟨2, fun _ _ => 0, fun p a => if p = 0 ∧ a = 0 then 30 else 0,
          fun _ => 0, fun p => p = 1⟩ 0
        = orOf (fun a => decide (0 < (fun p (a : Fin 6) =>
            if p = 0 ∧ a = 0 then 30 else 0) 0 a))) ∧
    ((fun p => p = 1 : ℕ → Bool) 1 = true ∧
      ScaffoldCallData.weak
        ⟨2, fun _ _ => 0, fun p a => if p = 0 ∧ a = 0 then 30 else 0,
          fun _ => 0, fun p => p = 1⟩ 1 = 0) :=
  ⟨⟨by decide,
    ((call_alleles_weak_strong
      ⟨2, fun _ _ => 0, fun p a => if p = 0 ∧ a = 0 then 30 else 0,
        fun _ => 0, fun p => p = 1⟩ 20 (1/2) 0).1 (by decide)).1⟩,
   ⟨by decide,
    ((call_alleles_weak_strong
      ⟨2, fun _ _ => 0, fun p a => if p = 0 ∧ a = 0 then 30 else 0,
        fun _ => 0, fun p => p = 1⟩ 20 (1/2) 1).2 (by decide)).1⟩⟩

/-- C10. After `call_alleles`, the strong call at every position is a
sub-bitset of the weak call: `strong[p] AND NOT weak[p] = 0` (both arrays
fit in 6 bits, so NOT is XOR with 63).  `min_pileup_qual` is a
non-negative quality threshold, embedded as `ℕ`. -/
theorem strong_sub_bitset_of_weak (scd : ScaffoldCallData)
    (min_pileup_qual : ℕ) (min_qual_frac : ℚ) (p : ℕ) :
    Nat.land (scd.strong min_pileup_qual min_qual_frac p)
      (Nat.xor 63 (scd.weak p)) = 0 := by
  unfold ScaffoldCallData.strong ScaffoldCallData.weak
  by_cases hhigh : scd.high_coverage p
  · simp only [hhigh, if_true]
    decide
  · simp only [hhigh, Bool.false_eq_true, if_false]
    apply maskSum_land_compl
    intro a ha
    have h1 : min_pileup_qual < scd.alleles_qual p a := by
      have := Bool.and_elim_left ha
      exact of_decide_eq_true this
    exact decide_eq_true_eq.mpr (Nat.lt_of_le_of_lt (Nat.zero_le _) h1)

/-! ## variant_caller.py: find_gaps (claim C8) -/

/-- `alleles[:, 0].sum(axis=-1)` at one position: depth of good reads. -/
def ScaffoldCallData.depth (scd : ScaffoldCallData) (p : ℕ) : ℕ :=
  ((List.finRange 6).map (fun a => scd.alleles_count p a)).sum

/-- `lowmq[p] = (lowmq_count[p] > 1) & (lowmq_count[p] > depth[p])`. -/
def ScaffoldCallData.lowmq (scd : ScaffoldCallData) (p : ℕ) : Bool :=
  decide (1 < scd.lowmq_count p) && decide (scd.depth p < scd.lowmq_count p)

/-- `covered[p] = (weak[p] > 0) | lowmq[p]`. -/
def ScaffoldCallData.covered (scd : ScaffoldCallData) (p : ℕ) : Bool :=
  decide (0 < scd.weak p) || scd.lowmq p

/-- Maximal runs of equal values in a boolean array, as
`(start, length, value)` triples with absolute start positions. -/
def consecGroups : ℕ → List Bool → List (ℕ × ℕ × Bool)
  | _, [] => []
  | s, b :: t =>
    (s, (t.takeWhile (fun x => x == b)).length + 1, b) ::
      consecGroups (s + ((t.takeWhile (fun x => x == b)).length + 1))
        (t.dropWhile (fun x => x == b))
termination_by _ l => l.length
decreasing_by
  simp only [List.length_cons]
  exact Nat.lt_succ_of_le (List.dropWhile_sublist _).length_le

/-- Modelled from the spec: `strainge/utils.py` is not in the sources.
`find_consecutive_groups(array, min_size)` finds the maximal runs of
equal values and keeps those of length at least `min_size`. -/
def find_consecutive_groups (arr : List Bool) (min_size : ℕ) :
    List (ℕ × ℕ × Bool) :=
  (consecGroups 0 arr).filter (fun g => decide (min_size ≤ g.2.1))

/-- `ScaffoldCallData.find_gaps`: gaps are the retained runs whose data
is all-uncovered, as half-open `(start, length)` intervals.  The
`min_size` argument stands for the already coverage-scaled minimum gap
size (`scale_min_gap_size` divides by the Lander-Waterman factor from
the missing `strainge/utils.py`). -/
def ScaffoldCallData.find_gaps (scd : ScaffoldCallData) (min_size : ℕ) :
    List (ℕ × ℕ) :=
  ((find_consecutive_groups ((List.range scd.length).map scd.covered)
      min_size).filter
    (fun g => g.2.2 == false)).map (fun g => (g.1, g.2.1))

theorem getD_cons_append_right {b : Bool} (tw dr : List Bool) (r : ℕ)
    (d : Bool) :
    (b :: (tw ++ dr)).getD (tw.length + 1 + r) d = dr.getD r d := by
  rw [show tw.length + 1 + r = (tw.length + r) + 1 from by omega,
    List.getD_cons_succ, List.getD_eq_getElem?_getD,
    List.getD_eq_getElem?_getD,
    List.getElem?_append_right (Nat.le_add_right _ _)]
  simp

theorem getD_map_range (f : ℕ → Bool) {n j : ℕ} (h : j < n) (d : Bool) :
    ((List.range n).map f).getD j d = f j := by
  rw [List.getD_eq_getElem _ d (by simpa using h)]
  simp

/-- Structure of `consecGroups`: every produced triple is a nonempty,
in-bounds, constant, maximal run. -/
theorem consecGroups_spec (s : ℕ) (l : List Bool) :
    ∀ g ∈ consecGroups s l,
      0 < g.2.1 ∧ s ≤ g.1 ∧ g.1 + g.2.1 ≤ s + l.length ∧
      (∀ j, g.1 ≤ j → j < g.1 + g.2.1 → l.getD (j - s) false = g.2.2) ∧
      (g.1 = s ∨ l.getD (g.1 - 1 - s) (!g.2.2) = !g.2.2) ∧
      (g.1 + g.2.1 = s + l.length ∨
        l.getD (g.1 + g.2.1 - s) (!g.2.2) = !g.2.2) := by
  induction s, l using consecGroups.induct with
  | case1 s => intro g hg; simp [consecGroups] at hg
  | case2 s b t ih =>
    intro g hg
    rw [consecGroups] at hg
    simp only [List.mem_cons] at hg
    have htdr : t.takeWhile (fun x => x == b) ++ t.dropWhile (fun x => x == b)
        = t := List.takeWhile_append_dropWhile ..
    have htw_all : ∀ x ∈ t.takeWhile (fun x => x == b), (x == b) = true :=
      fun _ hx => List.mem_takeWhile_imp (l := t) (p := fun y => y == b) hx
    have hdr_head : ∀ w : t.dropWhile (fun x => x == b) ≠ [],
        ((t.dropWhile (fun x => x == b)).head w == b) = false :=
      fun w => List.head_dropWhile_not _ t w
    generalize hgtw : t.takeWhile (fun x => x == b) = tw at *
    generalize hgdr : t.dropWhile (fun x => x == b) = dr at *
    have hlen2 : tw.length + dr.length = t.length := by
      have := congrArg List.length htdr
      simpa [List.length_append] using this
    -- every position of the head run carries the value b
    have hhead_mid : ∀ idx, idx < tw.length + 1 →
        (b :: t).getD idx false = b := by
      intro idx hidx
      match idx with
      | 0 => simp
      | Nat.succ k =>
        rw [List.getD_cons_succ]
        have hk : k < tw.length := by omega
        conv_lhs => rw [← htdr]
        rw [List.getD_eq_getElem?_getD, List.getElem?_append_left hk,
          List.getElem?_eq_getElem hk]
        have hmem : tw[k] ∈ tw := List.getElem_mem _
        simpa using htw_all _ hmem
    rcases hg with rfl | hgtail
    · -- the head group
      clear ih
      refine ⟨Nat.succ_pos _, Nat.le_refl s, ?_, ?_, Or.inl rfl, ?_⟩
      · show s + (tw.length + 1) ≤ s + (b :: t).length
        simp only [List.length_cons]
        omega
      · show ∀ j, s ≤ j → j < s + (tw.length + 1) →
          (b :: t).getD (j - s) false = b
        intro j hj1 hj2
        exact hhead_mid (j - s) (by omega)
      · -- right boundary of the head run
        show s + (tw.length + 1) = s + (b :: t).length ∨
          (b :: t).getD (s + (tw.length + 1) - s) (!b) = !b
        cases dr with
        | nil =>
          left
          simp only [List.length_cons]
          simp only [List.length_nil] at hlen2
          omega
        | cons c dr' =>
          right
          have hc : (c == b) = false := by
            simpa using hdr_head (by simp)
          have hcne : c ≠ b := by simpa using hc
          have hcb : c = !b := Bool.eq_not_of_ne hcne
          rw [show s + (tw.length + 1) - s = tw.length + 1 + 0 from by omega]
          conv_lhs => rw [← htdr]
          rw [getD_cons_append_right]
          simpa using hcb
    · -- a group of the tail runs
      obtain ⟨hpos, hge, hub, hmid, hleft, hright⟩ := ih g hgtail
      have hval0 : dr.getD (g.1 - (s + (tw.length + 1))) false = g.2.2 :=
        hmid g.1 (Nat.le_refl _) (by omega)
      refine ⟨hpos, by omega, ?_, ?_, ?_, ?_⟩
      · simp only [List.length_cons]
        omega
      · intro j hj1 hj2
        have hj := hmid j hj1 hj2
        rw [show j - s = tw.length + 1 + (j - (s + (tw.length + 1)))
          from by omega]
        conv_lhs => rw [← htdr]
        rw [getD_cons_append_right]
        exact hj
      · -- left maximality
        by_cases hfirst : g.1 = s + (tw.length + 1)
        · right
          -- the left neighbour is the last element of the head run, b,
          -- and the run value is the head of dr, which differs from b
          have hdrne : dr ≠ [] := by
            intro hnil
            rw [hnil] at hgtail
            simp [consecGroups] at hgtail
          clear hgtail
          have hvb : g.2.2 ≠ b := by
            cases dr with
            | nil => exact absurd rfl hdrne
            | cons c dr' =>
              have hc : (c == b) = false := by
                simpa using hdr_head (by simp)
              have hgc : g.2.2 = c := by
                rw [hfirst] at hval0
                simpa using hval0.symm
              rw [hgc]
              simpa using hc
          have hbval : b = !g.2.2 := Bool.eq_not_of_ne (Ne.symm hvb)
          have hpos' : (b :: t).getD (g.1 - 1 - s) false = b := by
            rw [show g.1 - 1 - s = tw.length from by omega]
            exact hhead_mid tw.length (by omega)
          have hidxlt : g.1 - 1 - s < (b :: t).length := by
            simp only [List.length_cons]
            omega
          rw [List.getD_eq_getElem _ _ hidxlt] at hpos' ⊢
          rw [hpos', hbval]
        · right
          rcases hleft with hl | hl
          · exact absurd hl hfirst
          · rw [show g.1 - 1 - s
              = tw.length + 1 + (g.1 - 1 - (s + (tw.length + 1)))
              from by omega]
            conv_lhs => rw [← htdr]
            rw [getD_cons_append_right]
            exact hl
      · -- right maximality
        rcases hright with hr | hr
        · left
          simp only [List.length_cons]
          omega
        · right
          rw [show g.1 + g.2.1 - s
            = tw.length + 1 + (g.1 + g.2.1 - (s + (tw.length + 1)))
            from by omega]
          conv_lhs => rw [← htdr]
          rw [getD_cons_append_right]
          exact hr

/-- C8. If every position of the scaffold is covered (a weak call or the
low-mapping-quality condition), `find_gaps` reports no gaps; and in
general every reported gap is a maximal all-uncovered run of length at
least the (coverage-scaled) minimum gap size, within bounds. -/
theorem find_gaps_covered_and_maximal (scd : ScaffoldCallData)
    (min_size : ℕ) :
    ((∀ p, p < scd.length → scd.covered p = true) →
      scd.find_gaps min_size = []) ∧
    (∀ st len, (st, len) ∈ scd.find_gaps min_size →
      min_size ≤ len ∧ 0 < len ∧ st + len ≤ scd.length ∧
      (∀ j, st ≤ j → j < st + len → scd.covered j = false) ∧
      (st = 0 ∨ scd.covered (st - 1) = true) ∧
      (st + len = scd.length ∨ scd.covered (st + len) = true)) := by
  set l := (List.range scd.length).map scd.covered with hl
  have hlength : l.length = scd.length := by simp [hl]
  constructor
  · intro hcov
    unfold ScaffoldCallData.find_gaps
    rw [List.map_eq_nil_iff, List.filter_eq_nil_iff]
    intro g hg
    unfold find_consecutive_groups at hg
    have hg2 : g ∈ consecGroups 0 l := by
      rw [hl]
      exact (List.mem_filter.mp hg).1
    obtain ⟨hpos, -, hub, hmid, -, -⟩ := consecGroups_spec 0 l g hg2
    have hval : l.getD (g.1 - 0) false = g.2.2 :=
      hmid g.1 (Nat.le_refl _) (by omega)
    have hidx : g.1 < scd.length := by
      rw [← hlength]
      simpa using Nat.lt_of_lt_of_le (by omega) hub
    rw [Nat.sub_zero, hl, getD_map_range _ hidx] at hval
    rw [hcov g.1 hidx] at hval
    simp [← hval]
  · intro st len hmem
    unfold ScaffoldCallData.find_gaps at hmem
    obtain ⟨g, hgmem, hgeq⟩ := List.mem_map.mp hmem
    obtain ⟨hgf, hvalfalse⟩ := List.mem_filter.mp hgmem
    unfold find_consecutive_groups at hgf
    have hgfc := List.mem_filter.mp hgf
    have hg2 : g ∈ consecGroups 0 l := by
      rw [hl]
      exact hgfc.1
    have hminsize : min_size ≤ g.2.1 := by simpa using hgfc.2
    have hvf : g.2.2 = false := by simpa using hvalfalse
    obtain ⟨hpos, -, hub, hmid, hleft, hright⟩ := consecGroups_spec 0 l g hg2
    obtain ⟨rfl, rfl⟩ : g.1 = st ∧ g.2.1 = len :=
      ⟨congrArg Prod.fst hgeq, congrArg Prod.snd hgeq⟩
    rw [Nat.zero_add, hlength] at hub
    refine ⟨hminsize, hpos, hub, ?_, ?_, ?_⟩
    · intro j hj1 hj2
      have := hmid j hj1 hj2
      rw [Nat.sub_zero, hl, getD_map_range _ (by omega)] at this
      rw [this, hvf]
    · rcases Nat.eq_zero_or_pos g.1 with h0 | h0
      · exact Or.inl h0
      · right
        rcases hleft with h | h
        · omega
        · rw [Nat.sub_zero, hvf, hl, getD_map_range _ (by omega)] at h
          simpa using h
    · by_cases hend : g.1 + g.2.1 = scd.length
      · exact Or.inl hend
      · right
        rcases hright with h | h
        · rw [Nat.zero_add, hlength] at h
          exact absurd h hend
        · rw [Nat.sub_zero, hvf, hl,
            getD_map_range _ (by omega)] at h
          simpa using h

/-- Witness for C8: a fully covered two-position scaffold yields no
gaps. -/
theorem find_gaps_covered_witness :
    (∀ p, p < 2 →
      ScaffoldCallData.covered
        ⟨2, fun _ _ => 0, fun _ a => if a = 0 then 30 else 0, fun _ => 0,
          fun _ => false⟩ p = true) ∧
    ScaffoldCallData.find_gaps
      ⟨2, fun _ _ => 0, fun _ a => if a = 0 then 30 else 0, fun _ => 0,
        fun _ => false⟩ 1 = [] :=
  ⟨by decide,
    (find_gaps_covered_and_maximal
      ⟨2, fun _ _ => 0, fun _ a => if a = 0 then 30 else 0, fun _ => 0,
        fun _ => false⟩ 1).1 (by decide)⟩

/-! ## kmertools.py: min_hash (claim C7) -/

/-- Modelled from the spec: FNV-1a over the 2k-bit payload
(the `kmerizer` C++ extension is not in the sources).  One step per
little-endian byte: `h := ((h XOR byte) * prime) mod 2^64`. -/
def fnv1a_bytes : ℕ → ℕ → ℕ → ℕ
  | 0, _, h => h
  | n + 1, v, h =>
    fnv1a_bytes n (v / 256) ((Nat.xor h (v % 256) * 1099511628211) % 2 ^ 64)

/-- Modelled from the spec: `kmerizer.fnvhash_kmers(k, kmers)` hashes
each packed k-mer with FNV-1a over its `⌈2k/8⌉` payload bytes. -/
def fnvhash_kmers (k : ℕ) (kmers : List ℕ) : List ℕ :=
  kmers.map (fun v => fnv1a_bytes ((2 * k + 7) / 8) v 14695981039346656037)

/-- `numpy.argsort`: indices that sort the array ascending (ties broken
by index, a permutation of `range`). -/
def argsort (l : List ℕ) : List ℕ :=
  (List.range l.length).mergeSort (fun i j =>
    decide (l.getD i 0 < l.getD j 0) ||
      (decide (l.getD i 0 = l.getD j 0) && decide (i ≤ j)))

/-- Python `round` (half to even), used by `int(round(size * frac))`. -/
def pythonRound (q : ℚ) : ℤ :=
  if q - Int.floor q < 1 / 2 then Int.floor q
  else if 1 / 2 < q - Int.floor q then Int.floor q + 1
  else if Even (Int.floor q) then Int.floor q else Int.floor q + 1

/-- `KmerSet.min_hash(frac)`: keep the `round(frac * size)` k-mers of
smallest FNV hash (by hash argsort order), then sort them ascending;
this sorted selection is the fingerprint. -/
def KmerSet.min_hash (ks : KmerSet) (frac : ℚ) : List ℕ :=
  let nkmers := (pythonRound ((ks.kmers.length : ℚ) * frac)).toNat
  let order := (argsort (fnvhash_kmers ks.k ks.kmers)).take nkmers
  (gather ks.kmers order).mergeSort (fun a b => decide (a ≤ b))

theorem pythonRound_natCast (n : ℕ) : pythonRound (n : ℚ) = n := by
  unfold pythonRound
  rw [Int.floor_natCast]
  norm_num

/-- C7. `min_hash(1.0)` on a strictly sorted, non-empty k-mer array
produces a fingerprint equal to the `kmers` array itself, and `min_hash`
is deterministic: equal KmerSets with the same fraction yield equal
fingerprints. -/
theorem min_hash_full_and_deterministic :
    (∀ ks : KmerSet, ks.kmers.Pairwise (· < ·) → ks.kmers ≠ [] →
      ks.min_hash 1 = ks.kmers) ∧
    (∀ a b : KmerSet, ∀ f : ℚ, a = b → a.min_hash f = b.min_hash f) := by
  constructor
  · intro ks hsort _
    have hdef : ks.min_hash 1 = (gather ks.kmers
        ((argsort (fnvhash_kmers ks.k ks.kmers)).take
          (pythonRound ((ks.kmers.length : ℚ) * 1)).toNat)).mergeSort
        (fun a b => decide (a ≤ b)) := rfl
    have hlen : ((ks.kmers.length : ℚ) * 1) = (ks.kmers.length : ℚ) := by
      ring
    have hordlen : (argsort (fnvhash_kmers ks.k ks.kmers)).length
        = ks.kmers.length := by
      unfold argsort fnvhash_kmers
      rw [List.length_mergeSort, List.length_range, List.length_map]
    have htake : (argsort (fnvhash_kmers ks.k ks.kmers)).take
        (Int.toNat (ks.kmers.length : ℤ))
        = argsort (fnvhash_kmers ks.k ks.kmers) := by
      rw [Int.toNat_natCast, ← hordlen, List.take_length]
    rw [hdef, hlen, pythonRound_natCast, htake]
    have hperm : List.Perm (argsort (fnvhash_kmers ks.k ks.kmers))
        (List.range ks.kmers.length) := by
      unfold argsort fnvhash_kmers
      rw [List.length_map]
      exact List.mergeSort_perm _ _
    have hgperm : List.Perm
        (gather ks.kmers (argsort (fnvhash_kmers ks.k ks.kmers)))
        ks.kmers := by
      unfold gather
      have hstep := hperm.map (fun i => ks.kmers.getD i 0)
      rw [map_getD_range ks.kmers] at hstep
      exact hstep
    have hsorted1 : ((gather ks.kmers
        (argsort (fnvhash_kmers ks.k ks.kmers))).mergeSort
          (fun a b => decide (a ≤ b))).Pairwise (· ≤ ·) := by
      have := @List.sorted_mergeSort ℕ
        (fun a b : ℕ => decide (a ≤ b))
        (fun a b c hab hbc => by
          simp only [decide_eq_true_eq] at *
          omega)
        (fun a b => by
          simp only [Bool.or_eq_true, decide_eq_true_eq]
          omega)
        (gather ks.kmers (argsort (fnvhash_kmers ks.k ks.kmers)))
      exact this.imp (fun h => of_decide_eq_true h)
    have hperm2 : List.Perm ((gather ks.kmers
        (argsort (fnvhash_kmers ks.k ks.kmers))).mergeSort
          (fun a b => decide (a ≤ b))) ks.kmers :=
      (List.mergeSort_perm _ _).trans hgperm
    exact List.eq_of_perm_of_sorted hperm2 hsorted1
      (hsort.imp le_of_lt)
  · intro a b f hab
    rw [hab]

/-- Witness for C7 at a concrete KmerSet. -/
theorem min_hash_full_and_deterministic_witness :
    (List.Pairwise (· < ·) [3, 5] ∧ ([3, 5] : List ℕ) ≠ []) ∧
    (⟨23, [3, 5], [1, 1]⟩ : KmerSet).min_hash 1 = [3, 5] :=
  ⟨⟨by decide, by decide⟩,
    min_hash_full_and_deterministic.1 ⟨23, [3, 5], [1, 1]⟩
      (by decide) (by decide)⟩

/-! ## kmertools.py: spectrum_min_max (claim C6) -/

/-- Run-length encoding of a sorted list (helper for `np.unique`). -/
def rleAux : List ℕ → ℕ → ℕ → List (ℕ × ℕ)
  | [], cur, cnt => [(cur, cnt)]
  | x :: t, cur, cnt =>
    if x = cur then rleAux t cur (cnt + 1)
    else (cur, cnt) :: rleAux t x 1

def rle : List ℕ → List (ℕ × ℕ)
  | [] => []
  | x :: t => rleAux t x 1

/-- `KmerSet.spectrum`: `np.unique(counts, return_counts=True)` — the
sorted distinct count values paired with their multiplicities. -/
def KmerSet.spectrum (ks : KmerSet) : List (ℕ × ℕ) :=
  rle (List.insertionSort (· ≤ ·) ks.counts)

/-- Loop state of `spectrum_min_max`: `min_index`, `max_index`,
`have_min`, `have_max`, `last_freq`. -/
structure SmmState where
  minIdx : ℕ
  maxIdx : ℕ
  haveMin : Bool
  haveMax : Bool
  lastFreq : ℕ
deriving Repr, DecidableEq

/-- One non-breaking iteration of the `spectrum_min_max` loop body.  The
second `elif counts[i] < counts[min_index]` of the source is kept even
though it repeats part of the previous condition and is unreachable. -/
def smmStep (fr cn : List ℕ) (delta : ℚ) (i : ℕ) (st : SmmState) :
    SmmState :=
  let count := cn.getD i 0
  let zero : Bool := decide (st.lastFreq + 1 < fr.getD i 0)
  let st1 :=
    if st.haveMin then
      let maxIdx1 := if cn.getD st.maxIdx 0 < count then i else st.maxIdx
      let haveMax1 :=
        if (count : ℚ) < (cn.getD maxIdx1 0 : ℚ) * (1 - delta) then true
        else st.haveMax
      { st with maxIdx := maxIdx1, haveMax := haveMax1 }
    else if decide (1000 < count) &&
        decide ((cn.getD st.minIdx 0 : ℚ) * (1 + delta) < (count : ℚ)) then
      { st with haveMin := true }
    else if zero || decide (count < cn.getD st.minIdx 0) then
      { st with minIdx := i, maxIdx := i }
    else if decide (count < cn.getD st.minIdx 0) then
      { st with minIdx := i, maxIdx := i }
    else st
  { st1 with lastFreq := fr.getD i 0 }

/-- The `for i in range(freq.size)` scan with its `break`; returns the
final value of `i` (the break index, or the last index on normal
completion) together with the final state.  The fuel argument starts at
`fr.length` so the loop is structural. -/
def smmLoop (fr cn : List ℕ) (delta : ℚ) (maxCn : ℕ) :
    ℕ → ℕ → SmmState → ℕ × SmmState
  | 0, _, st => (fr.length - 1, st)
  | fuel + 1, i, st =>
    if i < fr.length then
      if st.haveMax && (decide (st.lastFreq + 1 < fr.getD i 0) ||
          decide (fr.getD st.maxIdx 0 * maxCn < fr.getD i 0)) then
        (i, st)
      else smmLoop fr cn delta maxCn fuel (i + 1) (smmStep fr cn delta i st)
    else (fr.length - 1, st)

/-- `KmerSet.spectrum_min_max(delta, max_copy_number)`: scan the spectrum
for an error valley followed by a coverage peak; return
`(freq[min_index], freq[max_index], freq[i - 1])` (for the final loop
index `i`) when both indices moved off 0 and the peak count exceeds
`(1 + delta)` times the valley count, else nothing. -/
def KmerSet.spectrum_min_max (ks : KmerSet) (delta : ℚ) (maxCn : ℕ) :
    Option (ℕ × ℕ × ℕ) :=
  let fr := ks.spectrum.map Prod.fst
  let cn := ks.spectrum.map Prod.snd
  let r := smmLoop fr cn delta maxCn fr.length 0 ⟨0, 0, false, false, 0⟩
  if r.2.minIdx ≠ 0 ∧ r.2.maxIdx ≠ 0 ∧
      (cn.getD r.2.minIdx 0 : ℚ) * (1 + delta) < (cn.getD r.2.maxIdx 0 : ℚ)
  then some (fr.getD r.2.minIdx 0, fr.getD r.2.maxIdx 0, fr.getD (r.1 - 1) 0)
  else none

theorem smmStep_no_min {fr cn : List ℕ} {delta : ℚ} {i : ℕ} {st : SmmState}
    (h1 : st.haveMin = false) (h1b : st.haveMax = false)
    (h2 : st.minIdx = st.maxIdx)
    (htrig : (decide (1000 < cn.getD i 0) &&
      decide ((cn.getD st.minIdx 0 : ℚ) * (1 + delta)
        < (cn.getD i 0 : ℚ))) = false) :
    (smmStep fr cn delta i st).haveMin = false ∧
    (smmStep fr cn delta i st).haveMax = false ∧
    (smmStep fr cn delta i st).minIdx = (smmStep fr cn delta i st).maxIdx ∧
    ((smmStep fr cn delta i st).minIdx = st.minIdx ∨
      (smmStep fr cn delta i st).minIdx = i) := by
  unfold smmStep
  rw [h1]
  simp only [Bool.false_eq_true, if_false, htrig]
  split_ifs <;> simp_all

/-- While the no-valley condition holds, `have_min` never fires and the
tracked minimum and maximum indices coincide. -/
theorem smmLoop_no_min (fr cn : List ℕ) (delta : ℚ) (maxCn : ℕ)
    (hlen : fr.length ≤ cn.length)
    (hnv : ∀ i j, i < cn.length → j ≤ i → 1000 < cn.getD i 0 →
      (cn.getD i 0 : ℚ) ≤ (1 + delta) * (cn.getD j 0 : ℚ)) :
    ∀ fuel i st, st.haveMin = false → st.haveMax = false →
      st.minIdx = st.maxIdx → st.minIdx ≤ i →
      (smmLoop fr cn delta maxCn fuel i st).2.haveMin = false ∧
      (smmLoop fr cn delta maxCn fuel i st).2.minIdx
        = (smmLoop fr cn delta maxCn fuel i st).2.maxIdx := by
  intro fuel
  induction fuel with
  | zero =>
    intro i st h1 h1b h2 h3
    exact ⟨h1, h2⟩
  | succ fuel ih =>
    intro i st h1 h1b h2 h3
    rw [smmLoop]
    by_cases hi : i < fr.length
    · simp only [hi, if_true, h1b, Bool.false_and, Bool.false_eq_true,
        if_false]
      have htrig : (decide (1000 < cn.getD i 0) &&
          decide ((cn.getD st.minIdx 0 : ℚ) * (1 + delta)
            < (cn.getD i 0 : ℚ))) = false := by
        by_contra hne
        rw [Bool.not_eq_false, Bool.and_eq_true] at hne
        obtain ⟨ha, hb⟩ := hne
        have ha' : 1000 < cn.getD i 0 := of_decide_eq_true ha
        have hb' : (cn.getD st.minIdx 0 : ℚ) * (1 + delta)
            < (cn.getD i 0 : ℚ) := of_decide_eq_true hb
        have := hnv i st.minIdx (Nat.lt_of_lt_of_le hi hlen) h3 ha'
        rw [mul_comm] at this
        linarith
      obtain ⟨hs1, hs2, hs3, hs4⟩ := smmStep_no_min h1 h1b h2 htrig
      refine ih (i + 1) (smmStep fr cn delta i st) hs1 hs2 hs3 ?_
      rcases hs4 with h | h <;> omega
    · simp only [hi, if_false]
      exact ⟨h1, h2⟩

/-- C6 (amended).  (a) On a spectrum with no error valley — no entry
exceeding 1000 rises more than a factor `(1 + delta)` above any earlier
entry, hence above the running minimum — `spectrum_min_max` returns
nothing.  (b) Whenever it does return a triple, the triple is
`(freq[min_index], freq[max_index], freq[i - 1])` where `i` is the index
at which the scan stopped (its break index, or the final index when the
loop ran to completion) — not necessarily the last entry visited — and
the count at the peak index exceeds `(1 + delta)` times the count at the
valley index. -/
theorem spectrum_min_max_no_valley_and_result (ks : KmerSet) (delta : ℚ)
    (maxCn : ℕ) :
    (0 ≤ delta →
      (∀ i j, i < (ks.spectrum.map Prod.snd).length → j ≤ i →
        1000 < (ks.spectrum.map Prod.snd).getD i 0 →
        ((ks.spectrum.map Prod.snd).getD i 0 : ℚ) ≤
          (1 + delta) * ((ks.spectrum.map Prod.snd).getD j 0 : ℚ)) →
      ks.spectrum_min_max delta maxCn = none) ∧
    (∀ x y z, ks.spectrum_min_max delta maxCn = some (x, y, z) →
      ∃ r : ℕ × SmmState,
        smmLoop (ks.spectrum.map Prod.fst) (ks.spectrum.map Prod.snd) delta
          maxCn (ks.spectrum.map Prod.fst).length 0 ⟨0, 0, false, false, 0⟩
          = r ∧
        x = (ks.spectrum.map Prod.fst).getD r.2.minIdx 0 ∧
        y = (ks.spectrum.map Prod.fst).getD r.2.maxIdx 0 ∧
        z = (ks.spectrum.map Prod.fst).getD (r.1 - 1) 0 ∧
        ((ks.spectrum.map Prod.snd).getD r.2.minIdx 0 : ℚ) * (1 + delta) <
          ((ks.spectrum.map Prod.snd).getD r.2.maxIdx 0 : ℚ)) := by
  have hdef : ks.spectrum_min_max delta maxCn =
      (if (smmLoop (ks.spectrum.map Prod.fst) (ks.spectrum.map Prod.snd)
            delta maxCn (ks.spectrum.map Prod.fst).length 0
            ⟨0, 0, false, false, 0⟩).2.minIdx ≠ 0 ∧
          (smmLoop (ks.spectrum.map Prod.fst) (ks.spectrum.map Prod.snd)
            delta maxCn (ks.spectrum.map Prod.fst).length 0
            ⟨0, 0, false, false, 0⟩).2.maxIdx ≠ 0 ∧
          ((ks.spectrum.map Prod.snd).getD
            (smmLoop (ks.spectrum.map Prod.fst) (ks.spectrum.map Prod.snd)
              delta maxCn (ks.spectrum.map Prod.fst).length 0
              ⟨0, 0, false, false, 0⟩).2.minIdx 0 : ℚ) * (1 + delta) <
          ((ks.spectrum.map Prod.snd).getD
            (smmLoop (ks.spectrum.map Prod.fst) (ks.spectrum.map Prod.snd)
              delta maxCn (ks.spectrum.map Prod.fst).length 0
              ⟨0, 0, false, false, 0⟩).2.maxIdx 0 : ℚ)
        then some
          ((ks.spectrum.map Prod.fst).getD
            (smmLoop (ks.spectrum.map Prod.fst) (ks.spectrum.map Prod.snd)
              delta maxCn (ks.spectrum.map Prod.fst).length 0
              ⟨0, 0, false, false, 0⟩).2.minIdx 0,
           (ks.spectrum.map Prod.fst).getD
            (smmLoop (ks.spectrum.map Prod.fst) (ks.spectrum.map Prod.snd)
              delta maxCn (ks.spectrum.map Prod.fst).length 0
              ⟨0, 0, false, false, 0⟩).2.maxIdx 0,
           (ks.spectrum.map Prod.fst).getD
            ((smmLoop (ks.spectrum.map Prod.fst) (ks.spectrum.map Prod.snd)
              delta maxCn (ks.spectrum.map Prod.fst).length 0
              ⟨0, 0, false, false, 0⟩).1 - 1) 0)
        else none) := rfl
  constructor
  · intro hδ hnv
    have hlen : (ks.spectrum.map Prod.fst).length ≤
        (ks.spectrum.map Prod.snd).length := by
      simp
    obtain ⟨-, hmm⟩ := smmLoop_no_min (ks.spectrum.map Prod.fst)
      (ks.spectrum.map Prod.snd) delta maxCn hlen hnv
      (ks.spectrum.map Prod.fst).length 0 ⟨0, 0, false, false, 0⟩
      rfl rfl rfl (Nat.le_refl 0)
    rw [hdef, if_neg]
    rintro ⟨-, -, hlt⟩
    rw [hmm] at hlt
    have hnn : (0 : ℚ) ≤ ((ks.spectrum.map Prod.snd).getD
        (smmLoop (ks.spectrum.map Prod.fst) (ks.spectrum.map Prod.snd)
          delta maxCn (ks.spectrum.map Prod.fst).length 0
          ⟨0, 0, false, false, 0⟩).2.maxIdx 0 : ℚ) := by
      exact_mod_cast Nat.zero_le _
    nlinarith
  · intro x y z hxyz
    rw [hdef] at hxyz
    by_cases hguard : (smmLoop (ks.spectrum.map Prod.fst)
          (ks.spectrum.map Prod.snd) delta maxCn
          (ks.spectrum.map Prod.fst).length 0
          ⟨0, 0, false, false, 0⟩).2.minIdx ≠ 0 ∧
        (smmLoop (ks.spectrum.map Prod.fst) (ks.spectrum.map Prod.snd)
          delta maxCn (ks.spectrum.map Prod.fst).length 0
          ⟨0, 0, false, false, 0⟩).2.maxIdx ≠ 0 ∧
        ((ks.spectrum.map Prod.snd).getD
          (smmLoop (ks.spectrum.map Prod.fst) (ks.spectrum.map Prod.snd)
            delta maxCn (ks.spectrum.map Prod.fst).length 0
            ⟨0, 0, false, false, 0⟩).2.minIdx 0 : ℚ) * (1 + delta) <
        ((ks.spectrum.map Prod.snd).getD
          (smmLoop (ks.spectrum.map Prod.fst) (ks.spectrum.map Prod.snd)
            delta maxCn (ks.spectrum.map Prod.fst).length 0
            ⟨0, 0, false, false, 0⟩).2.maxIdx 0 : ℚ)
    · rw [if_pos hguard] at hxyz
      obtain ⟨h1, h2⟩ := Prod.mk.inj (Option.some.inj hxyz)
      obtain ⟨h3, h4⟩ := Prod.mk.inj h2
      exact ⟨_, rfl, h1.symm, h3.symm, h4.symm, hguard.2.2⟩
    · rw [if_neg hguard] at hxyz
      exact absurd hxyz (by simp)

/-- Witness for C6 at a concrete valley-free KmerSet: the scan reports
nothing. -/
theorem spectrum_min_max_no_valley_witness :
    (⟨23, [4, 9, 11], [1, 1, 2]⟩ : KmerSet).spectrum_min_max (1 / 2) 20
      = none :=
  (spectrum_min_max_no_valley_and_result ⟨23, [4, 9, 11], [1, 1, 2]⟩
    (1 / 2) 20).1 (by norm_num)
    (by
      intro i j hi hj h1000
      have h2 : i < 2 := by simpa using hi
      interval_cases i <;> exact absurd h1000 (by decide))

set_option maxRecDepth 8000 in
/-- Counterexample for C6 as stated: on this KmerSet the scan runs to
completion (no break) visiting all four spectrum entries 1, 2, 3, 4, yet
the returned triple is `(2, 4, 3)`: its third component is 3, the
next-to-last frequency, not the last visited spectrum frequency 4. -/
theorem spectrum_min_max_last_visited_counterexample :
    List.map Prod.fst
      (KmerSet.spectrum ⟨23, List.range 1010,
        List.replicate 3 1 ++ List.replicate 2 2 ++
        List.replicate 1001 3 ++ List.replicate 4 4⟩) = [1, 2, 3, 4] ∧
    (⟨23, List.range 1010,
        List.replicate 3 1 ++ List.replicate 2 2 ++
        List.replicate 1001 3 ++ List.replicate 4 4⟩ :
        KmerSet).spectrum_min_max (1 / 2) 20 = some (2, 4, 3) ∧
    (3 : ℕ) ≠ 4 := by
  have hspec : KmerSet.spectrum ⟨23, List.range 1010,
      List.replicate 3 1 ++ List.replicate 2 2 ++
      List.replicate 1001 3 ++ List.replicate 4 4⟩
      = [(1, 3), (2, 2), (3, 1001), (4, 4)] := by decide
  refine ⟨by rw [hspec]; rfl, ?_, by decide⟩
  simp only [KmerSet.spectrum_min_max, hspec]
  norm_num [smmLoop, smmStep]

/-! ## search_tool.py: find_close_references sample metrics (claim C1) -/

/-- `search_tool.Sample`: the sample KmerSet together with
`total_kmers`, the original total k-mer count recorded at load time
(`counts.sum()` before any reduction). -/
structure Sample where
  kmers : List ℕ
  counts : List ℕ
  total_kmers : ℕ
deriving Repr, DecidableEq

/-- `np.median` of an integer array as a rational: middle element for
odd length, mean of the two middle elements for even length (0 for the
empty array, where numpy yields NaN; unreachable in the claims). -/
def npMedian (l : List ℕ) : ℚ :=
  let s := List.insertionSort (· ≤ ·) l
  if l.length = 0 then 0
  else if l.length % 2 = 1 then (s.getD (l.length / 2) 0 : ℚ)
  else ((s.getD (l.length / 2 - 1) 0 : ℚ) + (s.getD (l.length / 2) 0 : ℚ)) / 2

/-- The sample-statistics header of `StrainGSTResult`. -/
structure StrainGSTResult where
  pan_kmers : ℕ
  pan_kcov : ℚ
  pan_pct : ℚ
deriving Repr, DecidableEq

/-- Steps 1-3 of `StrainGST.find_close_references`: restrict the sample
to the pan-genome keys, drop k-mers whose count exceeds
`median(counts) * universal` (seeding `excludes`), then report
`StrainGSTResult(sample.kmers.size, pan_kmers / |sample|,
pan_kmers * 100 / total_kmers)`, the percentage further divided by
`fingerprint_fraction` in fingerprint mode. -/
def find_close_references_metrics (pangenome_kmers : List ℕ)
    (universal : ℚ) (use_fingerprint : Bool) (fingerprint_fraction : ℚ)
    (sample : Sample) : StrainGSTResult :=
  let s1 := KmerSet.intersect ⟨23, sample.kmers, sample.counts⟩
    pangenome_kmers
  let universal_limit := npMedian s1.counts * universal
  let excludes := gather s1.kmers ((List.range s1.counts.length).filter
    (fun i => decide (universal_limit < (s1.counts.getD i 0 : ℚ))))
  let s2 := s1.exclude excludes
  let sample_pan_kmers := s2.counts.sum
  let sample_pan_kcov := (sample_pan_kmers : ℚ) / (s2.kmers.length : ℚ)
  let pct0 := (sample_pan_kmers : ℚ) * 100 / (sample.total_kmers : ℚ)
  let sample_pan_pct :=
    if use_fingerprint then pct0 / fingerprint_fraction else pct0
  ⟨s2.kmers.length, sample_pan_kcov, sample_pan_pct⟩

/-- The claim's notion of the remaining sample: the (k-mer, count) pairs
restricted to pan-genome keys, with the universal k-mers (count above
`median * universal`) removed. -/
def remaining_sample (pangenome_kmers : List ℕ) (universal : ℚ)
    (sample : Sample) : List (ℕ × ℕ) :=
  let kept := (sample.kmers.zip sample.counts).filter
    (fun x => decide (x.1 ∈ pangenome_kmers))
  let limit := npMedian (kept.map Prod.snd) * universal
  kept.filter (fun x => !decide (limit < (x.2 : ℚ)))

theorem filter_zip_map_fst (l c : List ℕ) (hlen : l.length = c.length)
    (p : ℕ → Bool) :
    ((l.zip c).filter (fun x => p x.1)).map Prod.fst = l.filter p := by
  induction l generalizing c with
  | nil => rfl
  | cons a t ih =>
    cases c with
    | nil => simp at hlen
    | cons b u =>
      have hlen' : t.length = u.length := by simpa using hlen
      rw [List.zip_cons_cons, List.filter_cons, List.filter_cons]
      by_cases hpa : p a
      · simp only [hpa, if_pos, List.map_cons]
        rw [ih u hlen']
      · simp only [hpa, Bool.false_eq_true, if_false]
        rw [ih u hlen']

theorem zip_map_fst_snd (l : List (ℕ × ℕ)) :
    (l.map Prod.fst).zip (l.map Prod.snd) = l := by
  rw [List.zip_map']
  simp

/-- Members of a list whose first projections are duplicate-free are
determined by their first projection. -/
theorem eq_of_mem_of_nodup_map_fst {l : List (ℕ × ℕ)} {x y : ℕ × ℕ}
    (hnd : (l.map Prod.fst).Nodup) (hx : x ∈ l) (hy : y ∈ l)
    (hfst : x.1 = y.1) : x = y :=
  List.inj_on_of_nodup_map hnd hx hy hfst

/-- The seeded `excludes` array (keys whose count exceeds the universal
limit), written as a boolean-mask gather, equals a pair filter. -/
theorem excludes_as_filter (kept : List (ℕ × ℕ)) (limit : ℚ) :
    gather (kept.map Prod.fst)
      ((List.range (kept.map Prod.snd).length).filter
        (fun i => decide (limit < ((kept.map Prod.snd).getD i 0 : ℚ))))
      = (kept.filter (fun x => decide (limit < (x.2 : ℚ)))).map Prod.fst := by
  refine Eq.trans (gather_pair_filter_range (kept.map Prod.snd)
    (kept.map Prod.fst) (by simp) (fun c => decide (limit < (c : ℚ)))) ?_
  rw [List.zip_map', List.filter_map, List.map_map]
  rfl

theorem diff_excludes_as_filter (kept : List (ℕ × ℕ)) (limit : ℚ)
    (hnd : (kept.map Prod.fst).Nodup) :
    diff (kept.map Prod.fst)
      ((kept.filter (fun y => decide (limit < (y.2 : ℚ)))).map Prod.fst)
      = (kept.filter (fun x => !decide (limit < (x.2 : ℚ)))).map Prod.fst := by
  unfold diff
  rw [List.filter_map]
  congr 1
  refine List.filter_congr ?_
  intro x hx
  show decide (x.1 ∉ (kept.filter
      (fun y => decide (limit < (y.2 : ℚ)))).map Prod.fst)
    = !decide (limit < (x.2 : ℚ))
  by_cases hq : limit < (x.2 : ℚ)
  · have hmem : x.1 ∈ (kept.filter
        (fun y => decide (limit < (y.2 : ℚ)))).map Prod.fst :=
      List.mem_map.mpr ⟨x, List.mem_filter.mpr ⟨hx, by simpa using hq⟩, rfl⟩
    simp [hmem, hq]
  · have hmem : x.1 ∉ (kept.filter
        (fun y => decide (limit < (y.2 : ℚ)))).map Prod.fst := by
      intro hmem
      obtain ⟨y, hy, hyx⟩ := List.mem_map.mp hmem
      have hy' := List.mem_filter.mp hy
      have hxy := eq_of_mem_of_nodup_map_fst hnd hy'.1 hx hyx
      rw [hxy] at hy'
      exact hq (by simpa using hy'.2)
    simp [hmem, hq]

theorem gather_counts_by_key_filter (kept : List (ℕ × ℕ)) (r : ℕ → Bool) :
    gather (kept.map Prod.snd)
      ((List.range (kept.map Prod.fst).length).filter
        (fun i => r ((kept.map Prod.fst).getD i 0)))
      = (kept.filter (fun x => r x.1)).map Prod.snd := by
  rw [gather_pair_filter_range (kept.map Prod.fst) (kept.map Prod.snd)
    (by simp) r, zip_map_fst_snd]

theorem counts_after_exclude_as_filter (kept : List (ℕ × ℕ)) (limit : ℚ)
    (hnd : (kept.map Prod.fst).Nodup) :
    gather (kept.map Prod.snd)
      (intersect_ix (kept.map Prod.fst)
        ((kept.filter (fun x => !decide (limit < (x.2 : ℚ)))).map Prod.fst))
      = (kept.filter (fun x => !decide (limit < (x.2 : ℚ)))).map Prod.snd := by
  unfold intersect_ix
  generalize hR : (kept.filter
    (fun x => !decide (limit < (x.2 : ℚ)))).map Prod.fst = R
  rw [gather_counts_by_key_filter kept (fun k => decide (k ∈ R))]
  subst hR
  refine congrArg (List.map Prod.snd) (List.filter_congr ?_)
  intro x hx
  show decide (x.1 ∈ (kept.filter
      (fun y => !decide (limit < (y.2 : ℚ)))).map Prod.fst)
    = !decide (limit < (x.2 : ℚ))
  by_cases hq : limit < (x.2 : ℚ)
  · have hmem : x.1 ∉ (kept.filter
        (fun y => !decide (limit < (y.2 : ℚ)))).map Prod.fst := by
      intro hmem
      obtain ⟨y, hy, hyx⟩ := List.mem_map.mp hmem
      have hy' := List.mem_filter.mp hy
      have hxy := eq_of_mem_of_nodup_map_fst hnd hy'.1 hx hyx
      rw [hxy] at hy'
      have : ¬ limit < (x.2 : ℚ) := by simpa using hy'.2
      exact this hq
    simp [hmem, hq]
  · have hmem : x.1 ∈ (kept.filter
        (fun y => !decide (limit < (y.2 : ℚ)))).map Prod.fst :=
      List.mem_map.mpr ⟨x, List.mem_filter.mpr ⟨hx, by simpa using hq⟩, rfl⟩
    simp [hmem, hq]

/-- The two arrays of the sample after the intersect-then-exclude steps
of `find_close_references` are the projections of `remaining_sample`. -/
theorem find_close_references_sample_reduction
    (pangenome_kmers : List ℕ) (universal : ℚ) (sample : Sample)
    (hsort : sample.kmers.Pairwise (· < ·))
    (hlen : sample.kmers.length = sample.counts.length) :
    ((KmerSet.intersect ⟨23, sample.kmers, sample.counts⟩
        pangenome_kmers).exclude
      (gather (KmerSet.intersect ⟨23, sample.kmers, sample.counts⟩
          pangenome_kmers).kmers
        ((List.range (KmerSet.intersect ⟨23, sample.kmers, sample.counts⟩
            pangenome_kmers).counts.length).filter
          (fun i => decide
            (npMedian (KmerSet.intersect ⟨23, sample.kmers, sample.counts⟩
                pangenome_kmers).counts * universal
              < (((KmerSet.intersect ⟨23, sample.kmers, sample.counts⟩
                  pangenome_kmers).counts.getD i 0 : ℚ))))))).kmers
      = (remaining_sample pangenome_kmers universal sample).map Prod.fst ∧
    ((KmerSet.intersect ⟨23, sample.kmers, sample.counts⟩
        pangenome_kmers).exclude
      (gather (KmerSet.intersect ⟨23, sample.kmers, sample.counts⟩
          pangenome_kmers).kmers
        ((List.range (KmerSet.intersect ⟨23, sample.kmers, sample.counts⟩
            pangenome_kmers).counts.length).filter
          (fun i => decide
            (npMedian (KmerSet.intersect ⟨23, sample.kmers, sample.counts⟩
                pangenome_kmers).counts * universal
              < (((KmerSet.intersect ⟨23, sample.kmers, sample.counts⟩
                  pangenome_kmers).counts.getD i 0 : ℚ))))))).counts
      = (remaining_sample pangenome_kmers universal sample).map Prod.snd := by
  have hs1k : (KmerSet.intersect ⟨23, sample.kmers, sample.counts⟩
      pangenome_kmers).kmers
      = ((sample.kmers.zip sample.counts).filter
          (fun x => decide (x.1 ∈ pangenome_kmers))).map Prod.fst := by
    refine Eq.trans (b := sample.kmers.filter
      (fun x => decide (x ∈ pangenome_kmers))) ?_ ?_
    · exact gather_filter_range sample.kmers
        (fun x => decide (x ∈ pangenome_kmers))
    · exact (filter_zip_map_fst sample.kmers sample.counts hlen
        (fun y => decide (y ∈ pangenome_kmers))).symm
  have hs1c : (KmerSet.intersect ⟨23, sample.kmers, sample.counts⟩
      pangenome_kmers).counts
      = ((sample.kmers.zip sample.counts).filter
          (fun x => decide (x.1 ∈ pangenome_kmers))).map Prod.snd :=
    gather_pair_filter_range sample.kmers sample.counts hlen
      (fun y => decide (y ∈ pangenome_kmers))
  have hnd : (((sample.kmers.zip sample.counts).filter
      (fun x => decide (x.1 ∈ pangenome_kmers))).map Prod.fst).Nodup := by
    rw [filter_zip_map_fst sample.kmers sample.counts hlen
      (fun y => decide (y ∈ pangenome_kmers))]
    exact (hsort.sublist (List.filter_sublist _)).imp
      (fun h => Nat.ne_of_lt h)
  constructor
  · show diff (KmerSet.intersect ⟨23, sample.kmers, sample.counts⟩
        pangenome_kmers).kmers _ = _
    rw [hs1k, hs1c, excludes_as_filter]
    exact diff_excludes_as_filter _ _ hnd
  · show gather (KmerSet.intersect ⟨23, sample.kmers, sample.counts⟩
        pangenome_kmers).counts _ = _
    rw [hs1k, hs1c, excludes_as_filter,
      diff_excludes_as_filter _ _ hnd]
    exact counts_after_exclude_as_filter _ _ hnd

/-- C1 (amended). The reported sample metrics are: `pan_kmers` is the
number of distinct remaining sample k-mers (not the sum of the remaining
counts), `pan_kcov` is the sum of the remaining counts divided by the
number of distinct remaining k-mers, and `pan_pct` is 100 times the sum
of the remaining counts divided by the sample's original total k-mer
count (further scaled by `1/fingerprint_fraction` in fingerprint
mode). -/
theorem find_close_references_metrics_characterization
    (pangenome_kmers : List ℕ) (universal : ℚ) (use_fingerprint : Bool)
    (fingerprint_fraction : ℚ) (sample : Sample)
    (hsort : sample.kmers.Pairwise (· < ·))
    (hlen : sample.kmers.length = sample.counts.length) :
    find_close_references_metrics pangenome_kmers universal use_fingerprint
        fingerprint_fraction sample =
      { pan_kmers := (remaining_sample pangenome_kmers universal
          sample).length,
        pan_kcov :=
          (((remaining_sample pangenome_kmers universal sample).map
              Prod.snd).sum : ℚ) /
            ((remaining_sample pangenome_kmers universal sample).length : ℚ),
        pan_pct :=
          if use_fingerprint then
            ((((remaining_sample pangenome_kmers universal sample).map
                Prod.snd).sum : ℚ) * 100 / (sample.total_kmers : ℚ)) /
              fingerprint_fraction
          else
            (((remaining_sample pangenome_kmers universal sample).map
                Prod.snd).sum : ℚ) * 100 / (sample.total_kmers : ℚ) } := by
  obtain ⟨hk, hc⟩ := find_close_references_sample_reduction pangenome_kmers
    universal sample hsort hlen
  show StrainGSTResult.mk _ _ _ = _
  rw [hk, hc, List.length_map]

/-- Witness for C1's amended characterization at a concrete sample. -/
theorem find_close_references_metrics_witness :
    (List.Pairwise (· < ·) [1, 2] ∧ ([1, 2] : List ℕ).length = 2) ∧
    find_close_references_metrics [1, 2] 100 false 1 ⟨[1, 2], [2, 3], 5⟩ =
      { pan_kmers := (remaining_sample [1, 2] 100 ⟨[1, 2], [2, 3], 5⟩).length,
        pan_kcov :=
          (((remaining_sample [1, 2] 100 ⟨[1, 2], [2, 3], 5⟩).map
              Prod.snd).sum : ℚ) /
            ((remaining_sample [1, 2] 100 ⟨[1, 2], [2, 3], 5⟩).length : ℚ),
        pan_pct :=
          (((remaining_sample [1, 2] 100 ⟨[1, 2], [2, 3], 5⟩).map
              Prod.snd).sum : ℚ) * 100 / ((5 : ℕ) : ℚ) } :=
  ⟨⟨by decide, by decide⟩,
    find_close_references_metrics_characterization [1, 2] 100 false 1
      ⟨[1, 2], [2, 3], 5⟩ (by decide) (by decide)⟩

/-- Counterexample for C1 as stated: on this sample the remaining counts
sum to 5, yet the reported `pan_kmers` is 2 (the number of distinct
remaining k-mers), and the reported `pan_pct` is 100 (a percentage), not
`5 / 5 = 1`. -/
theorem find_close_references_metrics_counterexample :
    find_close_references_metrics [1, 2] 100 false 1 ⟨[1, 2], [2, 3], 5⟩
      = ⟨2, 5 / 2, 100⟩ ∧
    ((remaining_sample [1, 2] 100 ⟨[1, 2], [2, 3], 5⟩).map Prod.snd).sum
      = 5 ∧
    (2 : ℕ) ≠ 5 ∧ (100 : ℚ) ≠ 5 / 5 := by
  have h := find_close_references_metrics_characterization [1, 2] 100 false 1
    ⟨[1, 2], [2, 3], 5⟩ (by decide) (by decide)
  have hrem : remaining_sample [1, 2] 100 ⟨[1, 2], [2, 3], 5⟩
      = [(1, 2), (2, 3)] := by
    unfold remaining_sample npMedian
    norm_num
  rw [hrem] at h
  refine ⟨?_, by rw [hrem]; rfl, by decide, by norm_num⟩
  rw [h]
  norm_num

/-! ## search_tool.py: score_strain (claim C3) -/

/-- `search_tool.StrainKmerSet`: a strain's k-mer arrays as loaded from
the pan-genome database; `distinct_kmers` is the distinct-k-mer count
recorded at load time, before any exclusion. -/
structure StrainKmerSet where
  name : String
  kmers : List ℕ
  counts : List ℕ
  distinct_kmers : ℕ
deriving Repr, DecidableEq

/-- The rational-valued fields of the `Strain` score record.  The
remaining namedtuple fields (`even`, `score0`, `score`) are real-valued
functions of these (they involve `exp`) and are not needed by the
claims. -/
structure StrainScore where
  strain : String
  gkmers : ℕ
  ikmers : ℕ
  skmers : ℕ
  cov : ℚ
  kcov : ℚ
  gcov : ℚ
  acct : ℚ
  wcov : ℚ
  spec : ℚ
deriving Repr, DecidableEq

/-- `StrainGST.score_strain`: apply the pending excludes to the strain,
bail out when too few k-mers remain (`min_frac`), when the strain shares
no k-mers with the sample, or when the accounted sample fraction is
below `min_acct`; otherwise return the populated score record. -/
def score_strain (pangenome : KmerSet) (min_frac min_acct : ℚ)
    (strain : StrainKmerSet) (sample : Sample)
    (excludes : Option (List ℕ)) : Option StrainScore :=
  let strainKs : KmerSet :=
    match excludes with
    | none => ⟨23, strain.kmers, strain.counts⟩
    | some e => KmerSet.exclude ⟨23, strain.kmers, strain.counts⟩ e
  if (strainKs.kmers.length : ℚ) < min_frac * (strain.distinct_kmers : ℚ)
  then none
  else
    let ix0 := intersect_ix pangenome.kmers strainKs.kmers
    let strain_pan_counts := gather pangenome.counts ix0
    let kmers_c := intersect strainKs.kmers sample.kmers
    if kmers_c.length = 0 then none
    else
      let ix1 := intersect_ix strainKs.kmers kmers_c
      let counts := gather strainKs.counts ix1
      let pan_counts := gather strain_pan_counts ix1
      let ix2 := intersect_ix sample.kmers kmers_c
      let sample_counts := gather sample.counts ix2
      let sample_count := sample_counts.sum
      let accounted := (sample_count : ℚ) / (sample.counts.sum : ℚ)
      if accounted < min_acct then none
      else
        let covered := (kmers_c.length : ℚ) / (strainKs.kmers.length : ℚ)
        let kmer_coverage := (sample_count : ℚ) / (sample_counts.length : ℚ)
        let genome_coverage :=
          (sample_count : ℚ) / (strainKs.counts.sum : ℚ)
        let weights := pan_counts.map (fun c => 1 / (c : ℚ))
        let strain_total_weight :=
          (List.zipWith (fun a w => (a : ℚ) * w) counts weights).sum
        let sample_total_weight :=
          (List.zipWith (fun a w => (a : ℚ) * w) sample_counts weights).sum
        let weighted_coverage := sample_total_weight / strain_total_weight
        let strain_mean_weight := strain_total_weight / (counts.sum : ℚ)
        let sample_mean_weight := sample_total_weight / (sample_count : ℚ)
        let specificity := sample_mean_weight / strain_mean_weight
        some
          { strain := strain.name, gkmers := strain.distinct_kmers,
            ikmers := strainKs.kmers.length, skmers := sample.kmers.length,
            cov := covered, kcov := kmer_coverage, gcov := genome_coverage,
            acct := accounted, wcov := weighted_coverage,
            spec := specificity }

theorem gather_intersect_ix_pair (l c R : List ℕ)
    (hlen : l.length = c.length) :
    gather c (intersect_ix l R)
      = ((l.zip c).filter (fun x => decide (x.1 ∈ R))).map Prod.snd := by
  unfold intersect_ix
  exact gather_pair_filter_range l c hlen (fun k => decide (k ∈ R))

/-- C3. `score_strain` returns nothing exactly when the strain's
remaining distinct k-mer count after exclusion falls below `min_frac`
times its original distinct count, or the excluded strain shares no
k-mer with the sample, or the accounted fraction (sample counts on the
intersection over all sample counts) is below `min_acct`; in every other
case it returns a populated record. -/
theorem score_strain_none_iff (pangenome : KmerSet)
    (min_frac min_acct : ℚ) (strain : StrainKmerSet) (sample : Sample)
    (excludes : List ℕ)
    (hslen : sample.kmers.length = sample.counts.length) :
    score_strain pangenome min_frac min_acct strain sample (some excludes)
        = none ↔
      ((((strain.kmers.filter (fun x => decide (x ∉ excludes))).length : ℚ)
          < min_frac * (strain.distinct_kmers : ℚ)) ∨
      (∀ x, ¬(x ∈ strain.kmers ∧ x ∉ excludes ∧ x ∈ sample.kmers)) ∨
      (((((sample.kmers.zip sample.counts).filter
            (fun x => decide (x.1 ∈ strain.kmers ∧ x.1 ∉ excludes))).map
              Prod.snd).sum : ℚ) / ((sample.counts.sum : ℚ)) < min_acct)) := by
  have hc2 : ((intersect (KmerSet.exclude ⟨23, strain.kmers, strain.counts⟩
        excludes).kmers sample.kmers).length = 0)
      ↔ (∀ x, ¬(x ∈ strain.kmers ∧ x ∉ excludes ∧ x ∈ sample.kmers)) := by
    rw [List.length_eq_zero]
    show intersect (diff strain.kmers excludes) sample.kmers = [] ↔ _
    unfold intersect diff
    rw [List.filter_eq_nil_iff]
    constructor
    · rintro h x ⟨hx1, hx2, hx3⟩
      refine h x (List.mem_filter.mpr ⟨hx1, by simpa using hx2⟩) ?_
      simpa using hx3
    · intro h x hx
      have hx' := List.mem_filter.mp hx
      intro hmem
      exact h x ⟨hx'.1, by simpa using hx'.2, by simpa using hmem⟩
  have hsc : gather sample.counts (intersect_ix sample.kmers
        (intersect (KmerSet.exclude ⟨23, strain.kmers, strain.counts⟩
          excludes).kmers sample.kmers))
      = ((sample.kmers.zip sample.counts).filter
          (fun x => decide (x.1 ∈ strain.kmers ∧ x.1 ∉ excludes))).map
          Prod.snd := by
    rw [gather_intersect_ix_pair sample.kmers sample.counts _ hslen]
    refine congrArg (List.map Prod.snd) (List.filter_congr ?_)
    rintro ⟨a, b⟩ hx
    have hx1 : a ∈ sample.kmers := (List.of_mem_zip hx).1
    simp only [decide_eq_decide]
    constructor
    · intro hm
      have hm1 := List.mem_filter.mp
        (show a ∈ (diff strain.kmers excludes).filter
          (fun x => decide (x ∈ sample.kmers)) from hm)
      have hm2 := List.mem_filter.mp hm1.1
      exact ⟨hm2.1, by simpa using hm2.2⟩
    · rintro ⟨ha1, ha2⟩
      show a ∈ (diff strain.kmers excludes).filter
        (fun x => decide (x ∈ sample.kmers))
      refine List.mem_filter.mpr ⟨?_, by simpa using hx1⟩
      exact List.mem_filter.mpr ⟨ha1, by simpa using ha2⟩
  simp only [score_strain]
  split_ifs with h1 h2 h3
  · exact iff_of_true rfl (Or.inl h1)
  · exact iff_of_true rfl (Or.inr (Or.inl (hc2.mp h2)))
  · rw [hsc] at h3
    exact iff_of_true rfl (Or.inr (Or.inr h3))
  · refine iff_of_false (by simp) ?_
    rintro (h | h | h)
    · exact h1 h
    · exact h2 (hc2.mpr h)
    · rw [hsc] at h3
      exact h3 h

/-- Witness for C3 at a concrete input: a strain emptied below
`min_frac` by exclusion yields nothing. -/
theorem score_strain_none_iff_witness :
    (([3, 5] : List ℕ).length = ([1, 1] : List ℕ).length) ∧
    (score_strain ⟨23, [2, 4, 7], [1, 2, 1]⟩ (1 / 2) 0
        ⟨"s", [2, 4], [1, 1], 2⟩ ⟨[3, 5], [1, 1], 2⟩ (some [2, 4]) = none ↔
      ((((([2, 4] : List ℕ).filter
          (fun x => decide (x ∉ ([2, 4] : List ℕ)))).length : ℚ)
          < (1 / 2) * ((2 : ℕ) : ℚ)) ∨
      (∀ x, ¬(x ∈ ([2, 4] : List ℕ) ∧ x ∉ ([2, 4] : List ℕ) ∧
        x ∈ ([3, 5] : List ℕ))) ∨
      ((((([3, 5] : List ℕ).zip ([1, 1] : List ℕ)).filter
            (fun x => decide (x.1 ∈ ([2, 4] : List ℕ) ∧
              x.1 ∉ ([2, 4] : List ℕ)))).map
              Prod.snd).sum : ℚ) / ((([1, 1] : List ℕ).sum : ℚ)) < 0)) :=
  ⟨by decide,
    score_strain_none_iff ⟨23, [2, 4, 7], [1, 2, 1]⟩ (1 / 2) 0
      ⟨"s", [2, 4], [1, 1], 2⟩ ⟨[3, 5], [1, 1], 2⟩ [2, 4] (by decide)⟩

end StrainGE
